import Mathlib

/-!
Verification development for `kanji_book_cloud_vision.py`: a shallow
embedding of the word data model, the OCR word extractor, the
merge/filter/group pipeline, and the output-record mapping, together with
theorems settling the specification's claims about them.

Python integers are embedded as `Int`, OCR confidence scores (floats that
are only ever compared against a threshold) as `Rat`, Python strings as
`String`, and the uncaught `IndexError` on an empty filtered word list as
`Option.none`.
-/

namespace KanjiBook

/-- The `Word` dataclass (lines 11-18 of the source): transcribed text,
bounding-box extent, and the kanji flag fixed at creation. -/
structure Word where
  string : String
  yb : Int
  yt : Int
  xl : Int
  xr : Int
  iskanji : Bool
  deriving DecidableEq, Repr

/-- Embeds `Word.merge` (lines 25-27): append the next fragment's text and take its
right edge; every other field, including `iskanji`, keeps the left word's
value.  The Python method mutates `self`; since the only aliased object
(the merge buffer) is never shared with the output list at mutation time,
the value-semantics embedding is faithful. -/
def Word.merge (self next : Word) : Word :=
  { self with string := self.string ++ next.string, xr := next.xr }

/-- Models `self.string.encode('utf-8').decode('utf-8')` in
`Word.to_yaml_dict` (line 33), which is the identity on every Python `str`. -/
def utf8_roundtrip (s : String) : String := s

/-- Embeds `Word.to_yaml_dict` (lines 29-35): the emitted YAML mapping, embedded as
an association list in insertion order. -/
def Word.to_yaml_dict (self : Word) : List (String × String) :=
  if self.iskanji then
    [("string", self.string), ("type", "kanji")]
  else
    [("string", utf8_roundtrip self.string), ("type", "vocab")]

/-- The configuration values read from `conf.toml` that the embedded
functions consult (the keys accessed by `words_raw_from_response` and
`merge_and_filter_words`). -/
structure Config where
  min_confidence : Rat
  min_word_height : Int
  min_kanji_height : Int
  min_interword_distance : Int
  max_distance_from_kanji_top : Int
  max_distance_from_kanji_bottom : Int
  deriving Repr

/-- One vertex of a bounding quadrilateral in the Cloud Vision response. -/
structure Vertex where
  x : Int
  y : Int
  deriving DecidableEq, Repr

/-- The four-vertex bounding box of an OCR word; `v0`, `v1`, `v2`, `v3`
embed `bounding_box.vertices[0..3]`. -/
structure BoundingBox where
  v0 : Vertex
  v1 : Vertex
  v2 : Vertex
  v3 : Vertex
  deriving DecidableEq, Repr

/-- One symbol (glyph) of an OCR word. -/
structure OCRSymbol where
  text : String
  deriving DecidableEq, Repr

/-- One word of the OCR response, with its bounding box and confidence. -/
structure OCRWord where
  symbols : List OCRSymbol
  bounding_box : BoundingBox
  confidence : Rat
  deriving DecidableEq, Repr

/-- One paragraph of the OCR response. -/
structure OCRParagraph where
  words : List OCRWord
  deriving DecidableEq, Repr

/-- One block of the OCR response. -/
structure OCRBlock where
  paragraphs : List OCRParagraph
  deriving DecidableEq, Repr

/-- One page of the OCR response. -/
structure OCRPage where
  blocks : List OCRBlock
  deriving DecidableEq, Repr

/-- The OCR response; `pages` embeds `response.full_text_annotation.pages`. -/
structure OCRResponse where
  pages : List OCRPage
  deriving DecidableEq, Repr

/-- Embeds `words_raw_from_response` (lines 73-97): flatten the page / block /
paragraph / word nesting, keep words meeting the confidence and height
thresholds, and flag as kanji those at least `min_kanji_height` tall. -/
def words_raw_from_response (response : OCRResponse) (config : Config) : List Word :=
  response.pages.flatMap fun page =>
    page.blocks.flatMap fun block =>
      block.paragraphs.flatMap fun paragraph =>
        paragraph.words.flatMap fun word =>
          let word_text := String.join (word.symbols.map fun s => s.text)
          let bheight := |word.bounding_box.v2.y - word.bounding_box.v0.y|
          if word.confidence ≥ config.min_confidence ∧ bheight ≥ config.min_word_height then
            [{ string := word_text
               yb := word.bounding_box.v2.y
               yt := word.bounding_box.v0.y
               xl := word.bounding_box.v0.x
               xr := word.bounding_box.v1.x
               iskanji := decide (bheight ≥ config.min_kanji_height) }]
          else []

/-- Membership of a character in the regex character set the set A-Z, a-z, 0-9, slash, hyphen
(line 104 of the source). -/
def latin_char_set (c : Char) : Bool :=
  (decide ('A' ≤ c) && decide (c ≤ 'Z')) ||
  (decide ('a' ≤ c) && decide (c ≤ 'z')) ||
  (decide ('0' ≤ c) && decide (c ≤ '9')) ||
  c == '/' || c == '-'

/-- Embeds `regex.match(w.string)` for the single-character-set pattern
the set A-Z, a-z, 0-9, slash, hyphen (line 105): Python `re.match` anchors at position 0, so the
pattern matches exactly when the string's first character is in the set. -/
def regex_match_start (s : String) : Bool :=
  match s.data with
  | [] => false
  | c :: _ => latin_char_set c

/-- The Latin/numeric filter of `merge_and_filter_words` (lines 104-105):
keep the words the regex does not match. -/
def latin_filtered (words_raw : List Word) : List Word :=
  words_raw.filter fun w => !(regex_match_start w.string)

/-- The merge loop of `merge_and_filter_words` (lines 107-127), as a
recursion over the remaining input.  The state is the accumulated `words`
list, the `buffer_set` flag, and the `buffer` word; `cur` is
`words_raw[idx]` and the list argument holds `words_raw[idx+1..]`.  The
empty-rest case performs the post-loop flush (lines 124-127). -/
def mergeLoop (config : Config) (words : List Word) (buffer_set : Bool)
    (buffer : Word) (cur : Word) : List Word → List Word
  | [] => if buffer_set then words ++ [buffer] else words ++ [cur]
  | next :: rest =>
    if cur.iskanji then
      mergeLoop config (words ++ [cur]) false buffer next rest
    else
      let buf := if buffer_set then buffer else cur
      if |next.xl - cur.xr| ≤ config.min_interword_distance then
        mergeLoop config words true (buf.merge next) next rest
      else
        mergeLoop config (words ++ [buf]) false buf next rest

/-- The merge stage of `merge_and_filter_words` (lines 107-127): `none`
embeds the uncaught `IndexError` raised by `words_raw[0]` on an empty
filtered list; otherwise the loop starts with the first word as the
initial (unset) buffer, exactly as line 109 does. -/
def merge_words (config : Config) : List Word → Option (List Word)
  | [] => none
  | w :: ws => some (mergeLoop config [] false w w ws)

/-- The association test of the grouping loop (line 137): `k` lies in the
expanded vertical window of `kanji` and is itself not a kanji. -/
def near_kanji (config : Config) (kanji k : Word) : Bool :=
  decide (kanji.yt - config.max_distance_from_kanji_top ≤ k.yt) &&
  decide (k.yb ≤ kanji.yb + config.max_distance_from_kanji_bottom) &&
  (k.iskanji == false)

/-- The grouping loop of `merge_and_filter_words` (lines 130-138): for each
kanji of the merged list, in order, emit it followed by every associated
non-kanji word of the merged list, in order. -/
def group_loop (config : Config) (words : List Word) (queries : List Word) :
    List Word → List Word
  | [] => queries
  | w :: rest =>
    if w.iskanji then
      group_loop config words (queries ++ w :: words.filter (near_kanji config w)) rest
    else
      group_loop config words queries rest

/-- The kanji-grouping stage of `merge_and_filter_words` (lines 129-140). -/
def group_by_kanji (config : Config) (words : List Word) : List Word :=
  group_loop config words [] words

/-- Embeds `merge_and_filter_words` (lines 99-140): Latin/numeric filtering, the
sequential merge, then kanji grouping.  `none` embeds the crash on an
empty filtered list. -/
def merge_and_filter_words (config : Config) (words_raw : List Word) :
    Option (List Word) :=
  Option.map (group_by_kanji config) (merge_words config (latin_filtered words_raw))

/-- The output mapping of `main` (line 175): the list comprehension
`[q.to_yaml_dict() for q in queries]` that is serialized to YAML in order. -/
def output_records (queries : List Word) : List (List (String × String)) :=
  queries.map Word.to_yaml_dict

/-! ### Helper definitions for stating the claims -/

/-- The flat traversal-ordered list of candidate OCR words of a response. -/
def response_words (response : OCRResponse) : List OCRWord :=
  response.pages.flatMap fun page =>
    page.blocks.flatMap fun block =>
      block.paragraphs.flatMap fun paragraph => paragraph.words

/-- The retention test of the extractor: confidence at least `min_confidence`
and bounding-box height at least `min_word_height`. -/
def word_admitted (config : Config) (word : OCRWord) : Bool :=
  decide (word.confidence ≥ config.min_confidence ∧
    |word.bounding_box.v2.y - word.bounding_box.v0.y| ≥ config.min_word_height)

/-- The `Word` record the extractor builds for a retained OCR word. -/
def extracted_word (config : Config) (word : OCRWord) : Word :=
  { string := String.join (word.symbols.map fun s => s.text)
    yb := word.bounding_box.v2.y
    yt := word.bounding_box.v0.y
    xl := word.bounding_box.v0.x
    xr := word.bounding_box.v1.x
    iskanji := decide (|word.bounding_box.v2.y - word.bounding_box.v0.y| ≥
      config.min_kanji_height) }

/-- The pure vertical-window test used in stating the grouping claims:
`k`'s band lies within the expanded window of `kanji`. -/
def in_window (config : Config) (kanji k : Word) : Bool :=
  decide (kanji.yt - config.max_distance_from_kanji_top ≤ k.yt) &&
  decide (k.yb ≤ kanji.yb + config.max_distance_from_kanji_bottom)

/-- Every non-kanji entry of the list lies in the window of `kanji` or of a
more recent kanji entry preceding it. -/
def grouped_from (config : Config) (kanji : Word) : List Word → Bool
  | [] => true
  | w :: rest =>
    if w.iskanji then grouped_from config w rest
    else in_window config kanji w && grouped_from config kanji rest

/-- A query list is well grouped when it is empty or starts with a kanji and
every non-kanji entry lies in the window of the most recent kanji before it. -/
def well_grouped (config : Config) : List Word → Bool
  | [] => true
  | w :: rest => w.iskanji && grouped_from config w rest

/-- The trailing-absorption pattern: `w` is the final word of `l` and the word
just before it is a non-kanji within merging tolerance, so the merge loop
folds `w` into the pending buffer instead of flushing it. -/
def absorbed_trailing (config : Config) (l : List Word) (w : Word) : Prop :=
  ∃ init p, l = init ++ [p, w] ∧ p.iskanji = false ∧
    |w.xl - p.xr| ≤ config.min_interword_distance

/-- The word obtained by merging the run `r :: rs` left to right. -/
def run_merged (r : Word) (rs : List Word) : Word :=
  rs.foldl Word.merge r

/-- All consecutive horizontal gaps along `prev :: l` are within
`min_interword_distance`. -/
def chain_close (config : Config) : Word → List Word → Bool
  | _, [] => true
  | prev, x :: xs =>
    decide (|x.xl - prev.xr| ≤ config.min_interword_distance) && chain_close config x xs

/-! ### Concrete example values used by witnesses and counterexamples -/

/-- A sample configuration: confidence threshold 1/2, word height 10,
kanji height 40, interword distance 5, vertical window margins 100. -/
def cfgA : Config := ⟨mkRat 1 2, 10, 40, 5, 100, 100⟩

/-- A kanji word anchored at the top left. -/
def kanji1 : Word := ⟨"漢", 50, 0, 0, 10, true⟩

/-- A non-kanji word below `kanji1`, inside its expanded window. -/
def vocab1 : Word := ⟨"か", 70, 60, 100, 110, false⟩

/-- A kanji word horizontally within `cfgA.min_interword_distance` of
`vocab1`'s right edge. -/
def kanji2 : Word := ⟨"字", 50, 0, 112, 122, true⟩

/-- A non-kanji word far from every vertical window. -/
def vocab2 : Word := ⟨"ぬ", 310, 300, 200, 210, false⟩

/-- A kanji word within `cfgA.min_interword_distance` of `vocab3`. -/
def kanji3 : Word := ⟨"漢", 50, 0, 12, 30, true⟩

/-- A non-kanji word directly left of `kanji3`. -/
def vocab3 : Word := ⟨"か", 110, 100, 0, 10, false⟩

/-- A bounding box of height 45. -/
def bbox1 : BoundingBox := ⟨⟨0, 0⟩, ⟨10, 0⟩, ⟨10, 45⟩, ⟨0, 45⟩⟩

/-- An OCR word of full confidence with the tall bounding box `bbox1`. -/
def ocr_word1 : OCRWord := ⟨[⟨"字"⟩], bbox1, 1⟩

/-- A one-page, one-block, one-paragraph, one-word OCR response. -/
def response1 : OCRResponse := ⟨[⟨[⟨[⟨[ocr_word1]⟩]⟩]⟩]⟩

/-- The `Word` the extractor produces from `response1` under `cfgA`. -/
def word1 : Word := ⟨"字", 45, 0, 0, 10, true⟩

/-- The non-kanji word the merge loop produces from `vocab1` followed by the
absorbed trailing kanji `kanji2`. -/
def vocab_ka_ji : Word := ⟨"か字", 70, 60, 100, 122, false⟩

/-- First word of a three-fragment non-kanji run. -/
def tabe1 : Word := ⟨"た", 20, 12, 0, 5, false⟩

/-- Second word of the run, 1 pixel right of `tabe1`. -/
def tabe2 : Word := ⟨"べ", 21, 13, 6, 9, false⟩

/-- Third word of the run, 2 pixels right of `tabe2`. -/
def tabe3 : Word := ⟨"る", 22, 14, 11, 15, false⟩

/-! ### Basic lemmas about the extractor -/

lemma filter_map_flatMap {α β γ : Type} (l : List α) (f : α → List β)
    (p : β → Bool) (g : β → γ) :
    ((l.flatMap f).filter p).map g = l.flatMap fun a => ((f a).filter p).map g := by
  induction l with
  | nil => simp
  | cons a t ih => simp [ih]

lemma payload_eq_filter_map (config : Config) (ws : List OCRWord) :
    (ws.flatMap fun word =>
      let word_text := String.join (word.symbols.map fun s => s.text)
      let bheight := |word.bounding_box.v2.y - word.bounding_box.v0.y|
      if word.confidence ≥ config.min_confidence ∧ bheight ≥ config.min_word_height then
        [{ string := word_text
           yb := word.bounding_box.v2.y
           yt := word.bounding_box.v0.y
           xl := word.bounding_box.v0.x
           xr := word.bounding_box.v1.x
           iskanji := decide (bheight ≥ config.min_kanji_height) : Word }]
      else []) = (ws.filter (word_admitted config)).map (extracted_word config) := by
  induction ws with
  | nil => simp
  | cons w t ih =>
    by_cases h : w.confidence ≥ config.min_confidence ∧
        |w.bounding_box.v2.y - w.bounding_box.v0.y| ≥ config.min_word_height
    · simp only [List.flatMap_cons, ih, if_pos h]
      rw [List.filter_cons_of_pos (by simpa [word_admitted] using h)]
      simp [extracted_word]
    · simp only [List.flatMap_cons, ih, if_neg h]
      rw [List.filter_cons_of_neg (by simpa [word_admitted] using h)]
      simp

/-- The extractor, rephrased: filter the traversal-ordered candidates by the
retention test and build a `Word` from each survivor. -/
lemma words_raw_from_response_eq (response : OCRResponse) (config : Config) :
    words_raw_from_response response config =
      ((response_words response).filter (word_admitted config)).map
        (extracted_word config) := by
  unfold words_raw_from_response response_words
  rw [filter_map_flatMap]
  refine List.flatMap_congr ?_
  intro page _
  rw [filter_map_flatMap]
  refine List.flatMap_congr ?_
  intro block _
  rw [filter_map_flatMap]
  refine List.flatMap_congr ?_
  intro paragraph _
  exact payload_eq_filter_map config paragraph.words

/-- Characterization of the anchored regex test: it succeeds exactly when
the text starts with a character of the Latin/numeric set. -/
lemma regex_match_start_iff (s : String) :
    regex_match_start s = true ↔ ∃ c cs, s.data = c :: cs ∧
      (('A' ≤ c ∧ c ≤ 'Z') ∨ ('a' ≤ c ∧ c ≤ 'z') ∨ ('0' ≤ c ∧ c ≤ '9') ∨
        c = '/' ∨ c = '-') := by
  cases h : s.data with
  | nil => simp [regex_match_start, h]
  | cons c cs => simp [regex_match_start, h, latin_char_set, or_assoc]

/-! ### Claim theorems: extractor, filter, and output claims -/

/-- Claim C4: an input whose raw word sequence becomes empty after the
Latin/numeric filter (in particular an already-empty input) makes
`merge_and_filter_words` fail — the embedded function returns `none`,
the model of the uncaught `IndexError` at `words_raw[0]` — and these are
exactly the failing inputs. -/
theorem c4_crash_iff_empty_after_filter (config : Config) (words_raw : List Word) :
    merge_and_filter_words config words_raw = none ↔ latin_filtered words_raw = [] := by
  cases h : latin_filtered words_raw <;>
    simp [merge_and_filter_words, merge_words, h]

/-- Claim C5: the extractor keeps exactly the candidate words with
confidence at least `min_confidence` and bounding-box height
`|vertices[2].y - vertices[0].y|` at least `min_word_height`, in the
response's own traversal order. -/
theorem c5_extractor_threshold_filter (response : OCRResponse) (config : Config) :
    words_raw_from_response response config =
      ((response_words response).filter fun word =>
        decide (config.min_confidence ≤ word.confidence ∧
          config.min_word_height ≤ |word.bounding_box.v2.y - word.bounding_box.v0.y|)).map
        (extracted_word config) := by
  rw [words_raw_from_response_eq]
  have h : ∀ word ∈ response_words response, word_admitted config word =
      decide (config.min_confidence ≤ word.confidence ∧
        config.min_word_height ≤ |word.bounding_box.v2.y - word.bounding_box.v0.y|) := by
    intro word _
    unfold word_admitted
    rw [decide_eq_decide]
  rw [List.filter_congr h]

/-- Claim C6: a word retained by the extractor is flagged as kanji exactly
when its bounding-box height (recoverable as `|yb - yt|`) is at least
`min_kanji_height`; in particular heights below `min_kanji_height` give
`iskanji = false`. -/
theorem c6_kanji_iff_tall (response : OCRResponse) (config : Config) (w : Word)
    (hw : w ∈ words_raw_from_response response config) :
    w.iskanji = true ↔ config.min_kanji_height ≤ |w.yb - w.yt| := by
  rw [words_raw_from_response_eq] at hw
  rcases List.mem_map.mp hw with ⟨word, _, rfl⟩
  simp [extracted_word]

/-- Witness for C6 at the concrete response `response1`. -/
theorem c6_kanji_iff_tall_witness :
    word1.iskanji = true ↔ cfgA.min_kanji_height ≤ |word1.yb - word1.yt| :=
  c6_kanji_iff_tall response1 cfgA word1 (by decide)

/-- Claim C7: before any merging, `merge_and_filter_words` removes exactly
the raw words whose text begins with a character among the ranges A-Z,
a-z, 0-9 or the characters slash and hyphen (keeping the rest in order),
and the removal decision depends only on the first character of the text —
not on the word's confidence-independent geometry or its `iskanji` flag. -/
theorem c7_latin_filter_first_char (ws : List Word) (w wa wb : Word) :
    List.Sublist (latin_filtered ws) ws ∧
    (w ∈ latin_filtered ws ↔ w ∈ ws ∧
      ¬ ∃ c cs, w.string.data = c :: cs ∧
        (('A' ≤ c ∧ c ≤ 'Z') ∨ ('a' ≤ c ∧ c ≤ 'z') ∨ ('0' ≤ c ∧ c ≤ '9') ∨
          c = '/' ∨ c = '-')) ∧
    (wa.string.data.head? = wb.string.data.head? →
      regex_match_start wa.string = regex_match_start wb.string) := by
  refine ⟨List.filter_sublist ws, ?_, ?_⟩
  · rw [latin_filtered, List.mem_filter]
    refine and_congr_right fun _ => ?_
    rw [show ((!regex_match_start w.string) = true ↔
        ¬(regex_match_start w.string = true)) from by simp]
    exact not_congr (regex_match_start_iff w.string)
  · intro h
    unfold regex_match_start
    cases ha : wa.string.data with
    | nil =>
      cases hb : wb.string.data with
      | nil => rfl
      | cons d ds => rw [ha, hb] at h; simp at h
    | cons c cs =>
      cases hb : wb.string.data with
      | nil => rw [ha, hb] at h; simp at h
      | cons d ds =>
        rw [ha, hb] at h
        simp at h
        subst h
        rfl

/-- Witness for C7 at a concrete word list. -/
theorem c7_latin_filter_first_char_witness :
    List.Sublist (latin_filtered [vocab1]) [vocab1] ∧
    (vocab1 ∈ latin_filtered [vocab1] ↔ vocab1 ∈ [vocab1] ∧
      ¬ ∃ c cs, vocab1.string.data = c :: cs ∧
        (('A' ≤ c ∧ c ≤ 'Z') ∨ ('a' ≤ c ∧ c ≤ 'z') ∨ ('0' ≤ c ∧ c ≤ '9') ∨
          c = '/' ∨ c = '-')) ∧
    regex_match_start vocab1.string = regex_match_start vocab1.string :=
  ⟨(c7_latin_filter_first_char [vocab1] vocab1 vocab1 vocab1).1,
   (c7_latin_filter_first_char [vocab1] vocab1 vocab1 vocab1).2.1,
   (c7_latin_filter_first_char [vocab1] vocab1 vocab1 vocab1).2.2 rfl⟩

/-- Claim C8: each output record carries exactly the two keys `string` and
`type`, in that order, with the word's text and the tag `kanji` or `vocab`
according to the flag; the records are listed in the query list's order. -/
theorem c8_record_shape (queries : List Word) :
    output_records queries = queries.map fun w =>
      [("string", w.string), ("type", if w.iskanji then "kanji" else "vocab")] := by
  unfold output_records
  have h : Word.to_yaml_dict = fun w : Word =>
      [("string", w.string), ("type", if w.iskanji then "kanji" else "vocab")] := by
    funext w
    cases h : w.iskanji <;> simp [Word.to_yaml_dict, utf8_roundtrip, h]
  rw [h]

/-! ### Step lemmas for the merge loop -/

lemma mergeLoop_nil (config : Config) (ws : List Word) (s : Bool) (buffer cur : Word) :
    mergeLoop config ws s buffer cur [] = if s then ws ++ [buffer] else ws ++ [cur] :=
  rfl

lemma mergeLoop_cons_kanji (config : Config) (ws : List Word) (s : Bool)
    (buffer cur next : Word) (rest : List Word) (h : cur.iskanji = true) :
    mergeLoop config ws s buffer cur (next :: rest) =
      mergeLoop config (ws ++ [cur]) false buffer next rest := by
  simp [mergeLoop, h]

lemma mergeLoop_cons_merge (config : Config) (ws : List Word) (s : Bool)
    (buffer cur next : Word) (rest : List Word) (h : cur.iskanji = false)
    (hgap : |next.xl - cur.xr| ≤ config.min_interword_distance) :
    mergeLoop config ws s buffer cur (next :: rest) =
      mergeLoop config ws true ((if s then buffer else cur).merge next) next rest := by
  simp [mergeLoop, h, hgap]

lemma mergeLoop_cons_flush (config : Config) (ws : List Word) (s : Bool)
    (buffer cur next : Word) (rest : List Word) (h : cur.iskanji = false)
    (hgap : ¬ |next.xl - cur.xr| ≤ config.min_interword_distance) :
    mergeLoop config ws s buffer cur (next :: rest) =
      mergeLoop config (ws ++ [if s then buffer else cur]) false
        (if s then buffer else cur) next rest := by
  simp [mergeLoop, h, hgap]

/-- The merge loop only ever appends to its accumulator. -/
lemma mergeLoop_append (config : Config) :
    ∀ (rest : List Word) (a b : List Word) (s : Bool) (buffer cur : Word),
      mergeLoop config (a ++ b) s buffer cur rest =
        a ++ mergeLoop config b s buffer cur rest := by
  intro rest
  induction rest with
  | nil =>
    intro a b s buffer cur
    cases s <;> simp [mergeLoop_nil]
  | cons next r ih =>
    intro a b s buffer cur
    cases hk : cur.iskanji with
    | true =>
      rw [mergeLoop_cons_kanji config _ s buffer cur next r hk,
        mergeLoop_cons_kanji config b s buffer cur next r hk,
        List.append_assoc, ih]
    | false =>
      by_cases hg : |next.xl - cur.xr| ≤ config.min_interword_distance
      · rw [mergeLoop_cons_merge config _ s buffer cur next r hk hg,
          mergeLoop_cons_merge config b s buffer cur next r hk hg, ih]
      · rw [mergeLoop_cons_flush config _ s buffer cur next r hk hg,
          mergeLoop_cons_flush config b s buffer cur next r hk hg,
          List.append_assoc, ih]

/-- Everything already accumulated stays in the merge loop's result. -/
lemma mergeLoop_mem_acc (config : Config) (rest ws : List Word) (s : Bool)
    (buffer cur q : Word) (hq : q ∈ ws) :
    q ∈ mergeLoop config ws s buffer cur rest := by
  have h : mergeLoop config ws s buffer cur rest =
      ws ++ mergeLoop config [] s buffer cur rest := by
    rw [← mergeLoop_append config rest ws [] s buffer cur, List.append_nil]
  rw [h]
  exact List.mem_append_left _ hq

/-! ### The grouping stage as a flat map -/

lemma group_loop_eq (config : Config) (allw : List Word) :
    ∀ (l queries : List Word), group_loop config allw queries l =
      queries ++ (l.filter fun w => w.iskanji).flatMap
        (fun kanji => kanji :: allw.filter (near_kanji config kanji)) := by
  intro l
  induction l with
  | nil => intro queries; simp [group_loop]
  | cons w rest ih =>
    intro queries
    cases h : w.iskanji with
    | true => simp [group_loop, h, ih]
    | false => simp [group_loop, h, ih]

lemma group_by_kanji_eq (config : Config) (words : List Word) :
    group_by_kanji config words = (words.filter fun w => w.iskanji).flatMap
      (fun kanji => kanji :: words.filter (near_kanji config kanji)) := by
  rw [group_by_kanji, group_loop_eq]
  simp

/-- Every query comes from the merged list. -/
lemma group_by_kanji_subset (config : Config) (words : List Word) (q : Word)
    (hq : q ∈ group_by_kanji config words) : q ∈ words := by
  rw [group_by_kanji_eq] at hq
  rcases List.mem_flatMap.mp hq with ⟨kanji, hkanji, hmem⟩
  rcases List.mem_cons.mp hmem with rfl | hmem
  · exact (List.mem_filter.mp hkanji).1
  · exact (List.mem_filter.mp hmem).1

/-- Every kanji of the merged list appears among the queries. -/
lemma group_by_kanji_kanji_mem (config : Config) (words : List Word) (w : Word)
    (hw : w ∈ words) (hk : w.iskanji = true) : w ∈ group_by_kanji config words := by
  rw [group_by_kanji_eq]
  exact List.mem_flatMap.mpr
    ⟨w, List.mem_filter.mpr ⟨hw, by simp [hk]⟩, List.mem_cons_self w _⟩

/-! ### Claim theorems: the grouping claim -/

/-- Claim C2: the query list is exactly, for each merged word flagged as
kanji in merged-list order, that kanji followed by every non-kanji merged
word whose vertical band lies within the kanji's expanded window, in
merged-list order; a non-kanji word qualifying for several kanji is
emitted once per qualifying kanji. -/
theorem c2_grouping_flatMap (config : Config) (words_raw qs : List Word)
    (h : merge_and_filter_words config words_raw = some qs) :
    ∃ merged, merge_words config (latin_filtered words_raw) = some merged ∧
      qs = (merged.filter fun w => w.iskanji).flatMap fun kanji =>
        kanji :: merged.filter fun k =>
          decide (k.iskanji = false ∧
            kanji.yt - config.max_distance_from_kanji_top ≤ k.yt ∧
            k.yb ≤ kanji.yb + config.max_distance_from_kanji_bottom) := by
  unfold merge_and_filter_words at h
  cases hm : merge_words config (latin_filtered words_raw) with
  | none => rw [hm] at h; simp at h
  | some merged =>
    rw [hm] at h
    simp only [Option.map_some', Option.some.injEq] at h
    refine ⟨merged, rfl, ?_⟩
    rw [← h, group_by_kanji_eq]
    refine List.flatMap_congr ?_
    intro kanji _
    have hfil : ∀ k ∈ merged, near_kanji config kanji k =
        decide (k.iskanji = false ∧
          kanji.yt - config.max_distance_from_kanji_top ≤ k.yt ∧
          k.yb ≤ kanji.yb + config.max_distance_from_kanji_bottom) := by
      intro k _
      cases hkk : k.iskanji <;> simp [near_kanji, hkk, Bool.decide_and]
    rw [List.filter_congr hfil]

/-- Witness for C2 at a concrete input. -/
theorem c2_grouping_flatMap_witness :
    ∃ merged, merge_words cfgA (latin_filtered [kanji1, vocab1]) = some merged ∧
      [kanji1, vocab1] = (merged.filter fun w => w.iskanji).flatMap fun kanji =>
        kanji :: merged.filter fun k =>
          decide (k.iskanji = false ∧
            kanji.yt - cfgA.max_distance_from_kanji_top ≤ k.yt ∧
            k.yb ≤ kanji.yb + cfgA.max_distance_from_kanji_bottom) :=
  c2_grouping_flatMap cfgA [kanji1, vocab1] [kanji1, vocab1] (by decide)

/-! ### Kanji words inside the merge loop -/

/-- A kanji-flagged word of the merge loop's result is either already
accumulated, the current word, or a word still to be processed — never the
buffer, whose flag is always non-kanji while set. -/
lemma mergeLoop_kanji_mem (config : Config) :
    ∀ (rest ws : List Word) (s : Bool) (buffer cur q : Word),
      (s = true → buffer.iskanji = false) →
      q ∈ mergeLoop config ws s buffer cur rest → q.iskanji = true →
      q ∈ ws ∨ q = cur ∨ q ∈ rest := by
  intro rest
  induction rest with
  | nil =>
    intro ws s buffer cur q hs hq hk
    cases s with
    | false =>
      simp only [mergeLoop_nil, Bool.false_eq_true, if_false] at hq
      rcases List.mem_append.mp hq with h | h
      · exact Or.inl h
      · exact Or.inr (Or.inl (List.mem_singleton.mp h))
    | true =>
      simp only [mergeLoop_nil, if_true] at hq
      rcases List.mem_append.mp hq with h | h
      · exact Or.inl h
      · rw [List.mem_singleton.mp h, hs rfl] at hk
        exact absurd hk (by simp)
  | cons next r ih =>
    intro ws s buffer cur q hs hq hk
    cases hcur : cur.iskanji with
    | true =>
      rw [mergeLoop_cons_kanji config ws s buffer cur next r hcur] at hq
      rcases ih _ _ _ _ _ (by simp) hq hk with h | h | h
      · rcases List.mem_append.mp h with h | h
        · exact Or.inl h
        · exact Or.inr (Or.inl (List.mem_singleton.mp h))
      · exact Or.inr (Or.inr (by simp [h]))
      · exact Or.inr (Or.inr (by simp [h]))
    | false =>
      by_cases hg : |next.xl - cur.xr| ≤ config.min_interword_distance
      · rw [mergeLoop_cons_merge config ws s buffer cur next r hcur hg] at hq
        have hbuf : ((if s then buffer else cur).merge next).iskanji = false := by
          cases s with
          | true => simp [Word.merge, hs rfl]
          | false => simp [Word.merge, hcur]
        rcases ih _ _ _ _ _ (fun _ => hbuf) hq hk with h | h | h
        · exact Or.inl h
        · exact Or.inr (Or.inr (by simp [h]))
        · exact Or.inr (Or.inr (by simp [h]))
      · rw [mergeLoop_cons_flush config ws s buffer cur next r hcur hg] at hq
        rcases ih _ _ _ _ _ (by simp) hq hk with h | h | h
        · rcases List.mem_append.mp h with h | h
          · exact Or.inl h
          · have h' := List.mem_singleton.mp h
            cases s with
            | true =>
              rw [if_pos rfl] at h'
              rw [h', hs rfl] at hk
              exact absurd hk (by simp)
            | false =>
              rw [if_neg (by simp)] at h'
              exact Or.inr (Or.inl h')
        · exact Or.inr (Or.inr (by simp [h]))
        · exact Or.inr (Or.inr (by simp [h]))

/-- If no filtered word is a kanji, no merged word is. -/
lemma merge_words_no_kanji (config : Config) (l merged : List Word)
    (hmerge : merge_words config l = some merged)
    (hl : ∀ w ∈ l, w.iskanji = false) : ∀ q ∈ merged, q.iskanji = false := by
  cases l with
  | nil => simp [merge_words] at hmerge
  | cons c ws =>
    simp only [merge_words, Option.some.injEq] at hmerge
    intro q hq
    by_contra hne
    have hqk : q.iskanji = true := by
      revert hne; cases q.iskanji <;> simp
    rw [← hmerge] at hq
    rcases mergeLoop_kanji_mem config ws [] false c c q (by simp) hq hqk with
      h | h | h
    · exact absurd h (by simp)
    · rw [hl q (by simp [h])] at hqk
      simp at hqk
    · rw [hl q (List.mem_cons_of_mem c h)] at hqk
      simp at hqk

/-! ### The grouping invariant -/

lemma near_kanji_split (config : Config) (kanji k : Word)
    (h : near_kanji config kanji k = true) :
    k.iskanji = false ∧ in_window config kanji k = true := by
  cases hk : k.iskanji with
  | false =>
    refine ⟨rfl, ?_⟩
    simp only [near_kanji, hk, Bool.and_eq_true, beq_self_eq_true, and_true] at h
    simp only [in_window, Bool.and_eq_true]
    exact ⟨h.1, h.2⟩
  | true => simp [near_kanji, hk] at h

lemma grouped_from_append (config : Config) (kanji : Word) :
    ∀ (xs ys : List Word),
      (∀ x ∈ xs, x.iskanji = false ∧ in_window config kanji x = true) →
      grouped_from config kanji ys = true →
      grouped_from config kanji (xs ++ ys) = true := by
  intro xs
  induction xs with
  | nil => intro ys _ h; simpa using h
  | cons x t ih =>
    intro ys hx hys
    have hx0 := hx x (List.mem_cons_self x t)
    simp only [List.cons_append, grouped_from, hx0.1, hx0.2, Bool.false_eq_true,
      if_false, Bool.true_and]
    exact ih ys (fun a ha => hx a (List.mem_cons_of_mem _ ha)) hys

lemma grouped_from_flatMap (config : Config) (words : List Word) :
    ∀ (kws : List Word), (∀ kw ∈ kws, kw.iskanji = true) →
      ∀ k0, grouped_from config k0 (kws.flatMap fun kw =>
        kw :: words.filter (near_kanji config kw)) = true := by
  intro kws
  induction kws with
  | nil => intro _ k0; simp [grouped_from]
  | cons k t ih =>
    intro hk k0
    have hkk := hk k (List.mem_cons_self k t)
    simp only [List.flatMap_cons, List.cons_append, grouped_from, hkk, if_true]
    refine grouped_from_append config k _ _ ?_ ?_
    · intro x hx
      exact near_kanji_split config k x (List.mem_filter.mp hx).2
    · exact ih (fun kw hkw => hk kw (List.mem_cons_of_mem k hkw)) k

/-- The grouping stage always produces a well-grouped query list. -/
lemma well_grouped_group_by_kanji (config : Config) (words : List Word) :
    well_grouped config (group_by_kanji config words) = true := by
  rw [group_by_kanji_eq]
  cases hf : words.filter (fun w => w.iskanji) with
  | nil => simp [well_grouped]
  | cons k t =>
    have hk : ∀ kw ∈ k :: t, kw.iskanji = true := by
      intro kw hkw
      have hmem : kw ∈ words.filter (fun w => w.iskanji) := by rw [hf]; exact hkw
      simpa using (List.mem_filter.mp hmem).2
    simp only [List.flatMap_cons, List.cons_append, well_grouped,
      hk k (List.mem_cons_self k t), Bool.true_and]
    refine grouped_from_append config k _ _ ?_ ?_
    · intro x hx
      exact near_kanji_split config k x (List.mem_filter.mp hx).2
    · exact grouped_from_flatMap config words t
        (fun kw hkw => hk kw (List.mem_cons_of_mem k hkw)) k

/-! ### Claim theorems: query-list structure and buffer discard -/

/-- Claim C9: every query list is empty or starts with a kanji, every
non-kanji query lies in the expanded window of the most recent kanji
preceding it, and a filtered input with no kanji yields an empty query
list. -/
theorem c9_query_list_structure (config : Config) (words_raw qs : List Word)
    (h : merge_and_filter_words config words_raw = some qs) :
    well_grouped config qs = true ∧
    ((∀ w ∈ latin_filtered words_raw, w.iskanji = false) → qs = []) := by
  unfold merge_and_filter_words at h
  cases hm : merge_words config (latin_filtered words_raw) with
  | none => rw [hm] at h; simp at h
  | some merged =>
    rw [hm] at h
    simp only [Option.map_some', Option.some.injEq] at h
    constructor
    · rw [← h]
      exact well_grouped_group_by_kanji config merged
    · intro hnone
      have hmerged := merge_words_no_kanji config _ merged hm hnone
      rw [← h, group_by_kanji_eq]
      have hfil : merged.filter (fun w => w.iskanji) = [] := by
        rw [List.filter_eq_nil_iff]
        intro a ha
        simp [hmerged a ha]
      rw [hfil]
      rfl

/-- Witness for C9 at a concrete input with no kanji. -/
theorem c9_query_list_structure_witness :
    well_grouped cfgA [] = true ∧
    ((∀ w ∈ latin_filtered [vocab1], w.iskanji = false) → ([] : List Word) = []) :=
  c9_query_list_structure cfgA [vocab1] [] (by decide)

/-- Claim C10: on the concrete input where non-kanji `vocab3` lies within
merging tolerance of the following kanji `kanji3`, the pending buffer
holding `vocab3`'s text is discarded when the kanji is processed: no word
of the output contains any character of `vocab3`'s text. -/
theorem c10_buffer_discarded :
    merge_and_filter_words cfgA [vocab3, kanji3, vocab2] = some [kanji3] ∧
    vocab3.iskanji = false ∧
    |kanji3.xl - vocab3.xr| ≤ cfgA.min_interword_distance ∧
    kanji3.iskanji = true ∧
    ∀ q ∈ [kanji3], ∀ c ∈ vocab3.string.data, c ∉ q.string.data := by
  decide

/-! ### Preservation of kanji words by the merge loop -/

lemma absorbed_trailing_cons (config : Config) (l : List Word) (a w : Word)
    (h : absorbed_trailing config l w) : absorbed_trailing config (a :: l) w := by
  rcases h with ⟨init, p, hl, hp, hd⟩
  exact ⟨a :: init, p, by rw [hl]; rfl, hp, hd⟩

/-- A kanji word of the remaining input reaches the merge loop's output,
except in the trailing-absorption pattern.  The last hypothesis rules out
the one entry state (`rest` empty, current word `w`, buffer in progress)
that the loop can only reach through that pattern. -/
lemma mergeLoop_kanji_preserved (config : Config) (w : Word) (hw : w.iskanji = true) :
    ∀ (rest : List Word) (cur : Word) (ws : List Word) (s : Bool) (buffer : Word),
      (w = cur ∨ w ∈ rest) →
      ¬ absorbed_trailing config (cur :: rest) w →
      ¬ (rest = [] ∧ cur = w ∧ s = true) →
      w ∈ mergeLoop config ws s buffer cur rest := by
  intro rest
  induction rest with
  | nil =>
    intro cur ws s buffer hmem habs hstate
    have hcur : w = cur := by
      rcases hmem with h | h
      · exact h
      · simp at h
    cases s with
    | false =>
      rw [mergeLoop_nil]
      simp only [Bool.false_eq_true, if_false]
      exact List.mem_append_right _ (by simp [hcur])
    | true => exact absurd ⟨rfl, hcur.symm, rfl⟩ hstate
  | cons next r ih =>
    intro cur ws s buffer hmem habs hstate
    cases hcur : cur.iskanji with
    | true =>
      rw [mergeLoop_cons_kanji config ws s buffer cur next r hcur]
      rcases hmem with h | h
      · exact mergeLoop_mem_acc config r (ws ++ [cur]) false buffer next w
          (List.mem_append_right _ (by simp [h]))
      · apply ih next (ws ++ [cur]) false buffer
        · exact List.mem_cons.mp h
        · intro habs'
          exact habs (absorbed_trailing_cons config (next :: r) cur w habs')
        · rintro ⟨-, -, h'⟩
          simp at h'
    | false =>
      have hwne : ¬ w = cur := by
        intro he
        rw [he, hcur] at hw
        simp at hw
      have hmem' : w = next ∨ w ∈ r := by
        rcases hmem with h | h
        · exact absurd h hwne
        · exact List.mem_cons.mp h
      by_cases hg : |next.xl - cur.xr| ≤ config.min_interword_distance
      · rw [mergeLoop_cons_merge config ws s buffer cur next r hcur hg]
        apply ih next ws true ((if s then buffer else cur).merge next)
        · exact hmem'
        · intro habs'
          exact habs (absorbed_trailing_cons config (next :: r) cur w habs')
        · rintro ⟨hr, hnw, -⟩
          apply habs
          refine ⟨[], cur, ?_, hcur, ?_⟩
          · rw [hr, hnw]; rfl
          · rw [← hnw]; exact hg
      · rw [mergeLoop_cons_flush config ws s buffer cur next r hcur hg]
        apply ih next (ws ++ [if s then buffer else cur]) false
          (if s then buffer else cur)
        · exact hmem'
        · intro habs'
          exact habs (absorbed_trailing_cons config (next :: r) cur w habs')
        · rintro ⟨-, -, h'⟩
          simp at h'

/-! ### Claim theorems: the kanji-unmodified claim -/

/-- Counterexample to claim C1 as stated: on
`[kanji1, vocab1, kanji2]`, the trailing kanji `kanji2` — which survives
the Latin filter — is merged into the pending non-kanji buffer, so the
output contains a word carrying `kanji2`'s text as a merged fragment and
`kanji2` itself appears nowhere in the output. -/
theorem c1_counterexample :
    latin_filtered [kanji1, vocab1, kanji2] = [kanji1, vocab1, kanji2] ∧
    kanji2.iskanji = true ∧
    merge_and_filter_words cfgA [kanji1, vocab1, kanji2] =
      some [kanji1, vocab_ka_ji] ∧
    kanji2 ∉ [kanji1, vocab_ka_ji] ∧
    vocab_ka_ji.string = vocab1.string ++ kanji2.string := by
  decide

/-- Claim C1, amended: every kanji-flagged output word is an unmodified
word of the filtered input, and every kanji word of the filtered input
appears in the output unless it is the final filtered word and lies within
`min_interword_distance` of an immediately preceding non-kanji word (in
which case its text is absorbed into the pending merge buffer). -/
theorem c1_kanji_unmodified_amended (config : Config) (words_raw qs : List Word)
    (h : merge_and_filter_words config words_raw = some qs) :
    (∀ q ∈ qs, q.iskanji = true → q ∈ latin_filtered words_raw) ∧
    (∀ w ∈ latin_filtered words_raw, w.iskanji = true →
      ¬ absorbed_trailing config (latin_filtered words_raw) w → w ∈ qs) := by
  unfold merge_and_filter_words at h
  cases hm : merge_words config (latin_filtered words_raw) with
  | none => rw [hm] at h; simp at h
  | some merged =>
    rw [hm] at h
    simp only [Option.map_some', Option.some.injEq] at h
    cases hf : latin_filtered words_raw with
    | nil => rw [hf] at hm; simp [merge_words] at hm
    | cons c ws =>
      rw [hf] at hm
      simp only [merge_words, Option.some.injEq] at hm
      constructor
      · intro q hq hqk
        rw [← h] at hq
        have hqm : q ∈ merged := group_by_kanji_subset config merged q hq
        rw [← hm] at hqm
        rcases mergeLoop_kanji_mem config ws [] false c c q (by simp) hqm hqk with
          h' | h' | h'
        · exact absurd h' (by simp)
        · rw [h']
          exact List.mem_cons_self c ws
        · exact List.mem_cons_of_mem c h'
      · intro w hwmem hwk habs
        have hwmerged : w ∈ merged := by
          rw [← hm]
          apply mergeLoop_kanji_preserved config w hwk ws c [] false c
          · exact List.mem_cons.mp hwmem
          · exact habs
          · rintro ⟨-, -, h'⟩
            simp at h'
        rw [← h]
        exact group_by_kanji_kanji_mem config merged w hwmerged hwk

/-- Witness for the amended C1 at a concrete input. -/
theorem c1_kanji_unmodified_amended_witness :
    (∀ q ∈ [kanji1], q.iskanji = true → q ∈ latin_filtered [kanji1]) ∧
    (∀ w ∈ latin_filtered [kanji1], w.iskanji = true →
      ¬ absorbed_trailing cfgA (latin_filtered [kanji1]) w → w ∈ [kanji1]) :=
  c1_kanji_unmodified_amended cfgA [kanji1] [kanji1] (by decide)

/-! ### The merged word of a run -/

lemma string_foldl_shift :
    ∀ (l : List String) (a : String),
      List.foldl (fun r s => r ++ s) a l = a ++ List.foldl (fun r s => r ++ s) "" l := by
  intro l
  induction l with
  | nil => intro a; simp
  | cons x xs ih =>
    intro a
    rw [List.foldl_cons, List.foldl_cons, ih (a ++ x), ih ("" ++ x)]
    have he : ("" : String) ++ x = x := by simp
    rw [he, String.append_assoc]

lemma string_join_cons (s : String) (l : List String) :
    String.join (s :: l) = s ++ String.join l := by
  simp only [String.join, List.foldl_cons]
  have he : ("" : String) ++ s = s := by simp
  rw [he]
  exact string_foldl_shift l s

lemma run_merged_string :
    ∀ (rs : List Word) (r : Word),
      (run_merged r rs).string = r.string ++ String.join (rs.map fun w => w.string) := by
  intro rs
  induction rs with
  | nil => intro r; simp [run_merged, String.join]
  | cons x xs ih =>
    intro r
    rw [show run_merged r (x :: xs) = run_merged (r.merge x) xs from rfl, ih (r.merge x),
      List.map_cons, string_join_cons]
    simp [Word.merge, String.append_assoc]

lemma run_merged_xr :
    ∀ (rs : List Word) (r : Word), (run_merged r rs).xr = (rs.getLastD r).xr := by
  intro rs
  induction rs with
  | nil => intro r; rfl
  | cons x xs ih =>
    intro r
    rw [show run_merged r (x :: xs) = run_merged (r.merge x) xs from rfl, ih (r.merge x),
      List.getLastD_cons]
    cases xs with
    | nil => simp [Word.merge]
    | cons y ys => rfl

lemma run_merged_fields :
    ∀ (rs : List Word) (r : Word),
      (run_merged r rs).yt = r.yt ∧ (run_merged r rs).yb = r.yb ∧
      (run_merged r rs).xl = r.xl ∧ (run_merged r rs).iskanji = r.iskanji := by
  intro rs
  induction rs with
  | nil => intro r; exact ⟨rfl, rfl, rfl, rfl⟩
  | cons x xs ih =>
    intro r
    rw [show run_merged r (x :: xs) = run_merged (r.merge x) xs from rfl]
    simpa [Word.merge] using ih (r.merge x)

/-! ### The merge loop on a close-knit run of non-kanji words -/

/-- With the buffer in progress, a chain-close all-non-kanji run is folded
into the buffer; at the end of input the buffer is flushed. -/
lemma mergeLoop_run_end (config : Config) :
    ∀ (rs : List Word) (r : Word) (ws : List Word) (b : Word),
      r.iskanji = false → (∀ x ∈ rs, x.iskanji = false) →
      chain_close config r rs = true →
      mergeLoop config ws true b r rs = ws ++ [run_merged b rs] := by
  intro rs
  induction rs with
  | nil =>
    intro r ws b _ _ _
    rw [mergeLoop_nil, if_pos rfl]
    rfl
  | cons x xs ih =>
    intro r ws b hr hrs hchain
    simp only [chain_close, Bool.and_eq_true, decide_eq_true_eq] at hchain
    rw [mergeLoop_cons_merge config ws true b r x xs hr hchain.1, if_pos rfl]
    exact ih x ws (b.merge x) (hrs x (List.mem_cons_self x xs))
      (fun a ha => hrs a (List.mem_cons_of_mem x ha)) hchain.2

/-- With the buffer in progress, a chain-close run followed by a too-far
word is folded into the buffer, which is then flushed before that word. -/
lemma mergeLoop_run_flush (config : Config) :
    ∀ (rs : List Word) (r : Word) (ws : List Word) (b q : Word) (post' : List Word),
      r.iskanji = false → (∀ x ∈ rs, x.iskanji = false) →
      chain_close config r rs = true →
      ¬ |q.xl - (rs.getLastD r).xr| ≤ config.min_interword_distance →
      mergeLoop config ws true b r (rs ++ q :: post') =
        mergeLoop config (ws ++ [run_merged b rs]) false (run_merged b rs) q post' := by
  intro rs
  induction rs with
  | nil =>
    intro r ws b q post' hr _ _ hq
    rw [List.nil_append, mergeLoop_cons_flush config ws true b r q post' hr hq,
      if_pos rfl]
    rfl
  | cons x xs ih =>
    intro r ws b q post' hr hrs hchain hq
    simp only [chain_close, Bool.and_eq_true, decide_eq_true_eq] at hchain
    rw [List.getLastD_cons] at hq
    rw [List.cons_append, mergeLoop_cons_merge config ws true b r x
      (xs ++ q :: post') hr hchain.1, if_pos rfl]
    exact ih x ws (b.merge x) q post' (hrs x (List.mem_cons_self x xs))
      (fun a ha => hrs a (List.mem_cons_of_mem x ha)) hchain.2 hq

/-- Starting a fresh buffer on a chain-close run at the end of input. -/
lemma mergeLoop_run_end_start (config : Config) (rs : List Word) (r : Word)
    (ws : List Word) (b : Word) (hr : r.iskanji = false)
    (hrs : ∀ x ∈ rs, x.iskanji = false) (hchain : chain_close config r rs = true) :
    mergeLoop config ws false b r rs = ws ++ [run_merged r rs] := by
  cases rs with
  | nil =>
    rw [mergeLoop_nil]
    simp only [Bool.false_eq_true, if_false]
    rfl
  | cons x xs =>
    simp only [chain_close, Bool.and_eq_true, decide_eq_true_eq] at hchain
    rw [mergeLoop_cons_merge config ws false b r x xs hr hchain.1,
      if_neg (by simp)]
    exact mergeLoop_run_end config xs x ws (r.merge x)
      (hrs x (List.mem_cons_self x xs))
      (fun a ha => hrs a (List.mem_cons_of_mem x ha)) hchain.2

/-- Starting a fresh buffer on a chain-close run followed by a too-far word. -/
lemma mergeLoop_run_flush_start (config : Config) (rs : List Word) (r : Word)
    (ws : List Word) (b q : Word) (post' : List Word) (hr : r.iskanji = false)
    (hrs : ∀ x ∈ rs, x.iskanji = false) (hchain : chain_close config r rs = true)
    (hq : ¬ |q.xl - (rs.getLastD r).xr| ≤ config.min_interword_distance) :
    mergeLoop config ws false b r (rs ++ q :: post') =
      mergeLoop config (ws ++ [run_merged r rs]) false (run_merged r rs) q post' := by
  cases rs with
  | nil =>
    rw [List.nil_append, mergeLoop_cons_flush config ws false b r q post' hr hq,
      if_neg (by simp)]
    rfl
  | cons x xs =>
    simp only [chain_close, Bool.and_eq_true, decide_eq_true_eq] at hchain
    rw [List.getLastD_cons] at hq
    rw [List.cons_append, mergeLoop_cons_merge config ws false b r x
      (xs ++ q :: post') hr hchain.1, if_neg (by simp)]
    exact mergeLoop_run_flush config xs x ws (r.merge x) q post'
      (hrs x (List.mem_cons_self x xs))
      (fun a ha => hrs a (List.mem_cons_of_mem x ha)) hchain.2 hq

/-- The merged word of a maximal chain-close non-kanji run reaches the
merge loop's output, for any prefix before the run, provided the word just
before the run (if any) is a kanji or too far, and the word just after the
run (if any) is too far. -/
lemma mergeLoop_run_reach (config : Config) (r : Word) (rs post : List Word)
    (hr : r.iskanji = false) (hrs : ∀ x ∈ rs, x.iskanji = false)
    (hchain : chain_close config r rs = true)
    (hpost : ∀ q, post.head? = some q →
      ¬ |q.xl - (rs.getLastD r).xr| ≤ config.min_interword_distance) :
    ∀ (pre : List Word) (cur : Word) (rest ws : List Word) (s : Bool) (buffer : Word),
      cur :: rest = pre ++ r :: (rs ++ post) →
      (pre = [] → s = false) →
      (∀ p, pre.getLast? = some p →
        p.iskanji = true ∨ ¬ |r.xl - p.xr| ≤ config.min_interword_distance) →
      run_merged r rs ∈ mergeLoop config ws s buffer cur rest := by
  intro pre
  induction pre with
  | nil =>
    intro cur rest ws s buffer heq hs _
    rw [List.nil_append] at heq
    injection heq with h1 h2
    rw [h1, h2, hs rfl]
    cases hp : post with
    | nil =>
      subst hp
      rw [List.append_nil,
        mergeLoop_run_end_start config rs r ws buffer hr hrs hchain]
      exact List.mem_append_right _ (List.mem_singleton.mpr rfl)
    | cons q post' =>
      subst hp
      rw [mergeLoop_run_flush_start config rs r ws buffer q post' hr hrs hchain
        (hpost q rfl)]
      exact mergeLoop_mem_acc config post' (ws ++ [run_merged r rs]) false
        (run_merged r rs) q (run_merged r rs)
        (List.mem_append_right _ (List.mem_singleton.mpr rfl))
  | cons p0 pre' ih =>
    intro cur rest ws s buffer heq hs hlast
    rw [List.cons_append] at heq
    injection heq with h1 h2
    subst h1
    have hlast' : ∀ p, pre'.getLast? = some p →
        p.iskanji = true ∨ ¬ |r.xl - p.xr| ≤ config.min_interword_distance := by
      intro p hp
      apply hlast p
      cases pre' with
      | nil => simp at hp
      | cons b l => rw [List.getLast?_cons_cons]; exact hp
    cases hrest : pre' ++ r :: (rs ++ post) with
    | nil => simp at hrest
    | cons next rest'' =>
      rw [hrest] at h2
      subst h2
      cases hcur : cur.iskanji with
      | true =>
        rw [mergeLoop_cons_kanji config ws s buffer cur next rest'' hcur]
        exact ih next rest'' (ws ++ [cur]) false buffer hrest.symm (fun _ => rfl)
          hlast'
      | false =>
        by_cases hg : |next.xl - cur.xr| ≤ config.min_interword_distance
        · have hpre' : pre' ≠ [] := by
            intro hnil
            subst hnil
            rw [List.nil_append] at hrest
            injection hrest with hn _
            rcases hlast cur (by simp) with hk | hd
            · rw [hcur] at hk
              simp at hk
            · rw [← hn] at hg
              exact hd hg
          rw [mergeLoop_cons_merge config ws s buffer cur next rest'' hcur hg]
          exact ih next rest'' ws true ((if s then buffer else cur).merge next)
            hrest.symm (fun h => absurd h hpre') hlast'
        · rw [mergeLoop_cons_flush config ws s buffer cur next rest'' hcur hg]
          exact ih next rest'' (ws ++ [if s then buffer else cur]) false
            (if s then buffer else cur) hrest.symm (fun _ => rfl) hlast'

/-! ### Claim theorems: the run-merging claim -/

/-- Counterexample to claim C3 as stated: in `[vocab1, kanji2]`, the
single word `vocab1` is a maximal run of adjacent non-kanji words, yet no
word of the merge stage's output carries the run's concatenated string
(`vocab1.string`): the following kanji lies within merging tolerance, so
it is absorbed into the run's buffer, and only the polluted word
`vocab_ka_ji` is emitted. -/
theorem c3_counterexample :
    merge_words cfgA [vocab1, kanji2] = some [vocab_ka_ji] ∧
    vocab1.iskanji = false ∧ kanji2.iskanji = true ∧
    |kanji2.xl - vocab1.xr| ≤ cfgA.min_interword_distance ∧
    ∀ w ∈ [vocab_ka_ji], w.string ≠ vocab1.string := by
  decide

/-- Claim C3, amended: for every maximal run of adjacent non-kanji words of
the filtered input whose consecutive gaps are all within
`min_interword_distance` — maximal in that the word before the run (if
any) is a kanji or too far, and with the amendment that the word after the
run (if any) is too far (for a non-kanji follower this is exactly
maximality; a kanji follower within tolerance would instead be absorbed,
destroying the run's merged word) — the merge stage emits a word whose
string is the left-to-right concatenation of the run's strings, whose
right edge is the last fragment's, and whose `yt`, `yb`, `xl` and
`iskanji` come from the first fragment. -/
theorem c3_run_merge_amended (config : Config) (words_raw : List Word)
    (pre rs post : List Word) (r : Word) (merged : List Word)
    (hmerge : merge_words config (latin_filtered words_raw) = some merged)
    (hdecomp : latin_filtered words_raw = pre ++ r :: (rs ++ post))
    (hr : r.iskanji = false)
    (hrs : ∀ x ∈ rs, x.iskanji = false)
    (hchain : chain_close config r rs = true)
    (hleft : ∀ p, pre.getLast? = some p →
      p.iskanji = true ∨ ¬ |r.xl - p.xr| ≤ config.min_interword_distance)
    (hright : ∀ q, post.head? = some q →
      ¬ |q.xl - (rs.getLastD r).xr| ≤ config.min_interword_distance) :
    run_merged r rs ∈ merged ∧
    (run_merged r rs).string = r.string ++ String.join (rs.map fun w => w.string) ∧
    (run_merged r rs).xr = (rs.getLastD r).xr ∧
    (run_merged r rs).yt = r.yt ∧ (run_merged r rs).yb = r.yb ∧
    (run_merged r rs).xl = r.xl ∧ (run_merged r rs).iskanji = r.iskanji := by
  refine ⟨?_, run_merged_string rs r, run_merged_xr rs r,
    (run_merged_fields rs r).1, (run_merged_fields rs r).2.1,
    (run_merged_fields rs r).2.2.1, (run_merged_fields rs r).2.2.2⟩
  rw [hdecomp] at hmerge
  cases hsplit : pre ++ r :: (rs ++ post) with
  | nil => simp at hsplit
  | cons c ws =>
    rw [hsplit] at hmerge
    simp only [merge_words, Option.some.injEq] at hmerge
    rw [← hmerge]
    exact mergeLoop_run_reach config r rs post hr hrs hchain hright pre c ws []
      false c hsplit.symm (fun _ => rfl) hleft

/-- Witness for the amended C3 on the three-fragment run
`[tabe1, tabe2, tabe3]`. -/
theorem c3_run_merge_amended_witness :
    run_merged tabe1 [tabe2, tabe3] ∈ [run_merged tabe1 [tabe2, tabe3]] ∧
    (run_merged tabe1 [tabe2, tabe3]).string =
      tabe1.string ++ String.join ([tabe2, tabe3].map fun w => w.string) ∧
    (run_merged tabe1 [tabe2, tabe3]).xr = ([tabe2, tabe3].getLastD tabe1).xr ∧
    (run_merged tabe1 [tabe2, tabe3]).yt = tabe1.yt ∧
    (run_merged tabe1 [tabe2, tabe3]).yb = tabe1.yb ∧
    (run_merged tabe1 [tabe2, tabe3]).xl = tabe1.xl ∧
    (run_merged tabe1 [tabe2, tabe3]).iskanji = tabe1.iskanji :=
  c3_run_merge_amended cfgA [tabe1, tabe2, tabe3] [] [tabe2, tabe3] [] tabe1
    [run_merged tabe1 [tabe2, tabe3]] (by decide) (by decide) (by decide)
    (by decide) (by decide)
    (fun p hp => by simp at hp) (fun q hq => by simp at hq)

end KanjiBook
